import Mathlib

/-!
Verification of the trie autocomplete engine (`src/trie.py`).

The embedding is shallow: the mutable Python `_Node` objects become a nested
inductive `Node`; the `dict` of children (which preserves insertion order,
looks a key up, assigns in place, and deletes a key) becomes an association
list `List (Char × Node)` with first-match lookup, in-place update, and
first-match deletion; floating-point scores become rationals; the mutating
methods of `Trie` become functions returning the new trie (and the value the
Python method returns).
-/

set_option maxHeartbeats 1000000

namespace TrieSpec

/-- Words are character sequences (Python `str`). -/
abbrev Word := List Char

/-- Candidate pairs `(freq, word)` as pushed on the heap in `complete`.
Comparison on these pairs mirrors Python tuple comparison:
first component first, lexicographic tie-break on the word. -/
abbrev Cand := ℚ × Word

/-- `_Node`: children mapping (`next`), word-ending flag (`end`),
and frequency (`score`). -/
inductive Node where
  | mk (next : List (Char × Node)) (end_ : Bool) (score : ℚ)

/-- The `next` field: char-keyed children, in dict insertion order. -/
def Node.next : Node → List (Char × Node)
  | .mk l _ _ => l

/-- The `end` field: does this node mark a word ending? -/
def Node.end_ : Node → Bool
  | .mk _ e _ => e

/-- The `score` field, only meaningful when `end_` is set. -/
def Node.score : Node → ℚ
  | .mk _ _ s => s

/-- A freshly constructed `_Node()`: no children, not terminal, score 0. -/
def Node.leaf : Node := .mk [] false 0

/-- `node.next.get(ch)`: first-match key lookup in the children list. -/
def getChild (c : Char) : List (Char × Node) → Option Node
  | [] => none
  | (d, m) :: r => if c = d then some m else getChild c r

/-- `node.next[ch] = m'` for a key already present: replace the value
at the first occurrence of the key, keeping its position. -/
def setChild (c : Char) (m' : Node) : List (Char × Node) → List (Char × Node)
  | [] => []
  | (d, m) :: r => if c = d then (d, m') :: r else (d, m) :: setChild c m' r

/-- `del node.next[ch]`: drop the first occurrence of the key. -/
def delChild (c : Char) : List (Char × Node) → List (Char × Node)
  | [] => []
  | (d, m) :: r => if c = d then r else (d, m) :: delChild c r

/-- `Trie._trace`, restricted to the node it reaches (the path component is
realized by the call stack of the recursive `removeW` below): follow the
characters of `text` down from `n`; `none` when a transition is missing. -/
def Node.trace : Node → Word → Option Node
  | n, [] => some n
  | n, c :: cs =>
    match getChild c n.next with
    | none => none
    | some m => m.trace cs

/-- `Trie.insert`, acting on a node: walk down `word`, creating missing
children (a fresh node is appended at the end of the dict, matching dict
insertion order); at the end set `end_` and overwrite `score`.
Returns the new node, the number of nodes created, and whether the final
node was already terminal (which decides the `word_count` update). -/
def Node.insertW : Node → Word → ℚ → Node × Nat × Bool
  | .mk l e _, [], freq => (.mk l true freq, 0, e)
  | .mk l e s, c :: cs, freq =>
    match getChild c l with
    | some child =>
      let r := child.insertW cs freq
      (.mk (setChild c r.1 l) e s, r.2.1, r.2.2)
    | none =>
      let r := Node.leaf.insertW cs freq
      (.mk (l ++ [(c, r.1)]) e s, r.2.1 + 1, r.2.2)

/-- `Trie.remove`, acting on a node. `none` when the word is absent (missing
transition, or final node not terminal); otherwise the new node and the
number of nodes pruned. The Python code clears the flag and then walks the
recorded path bottom-up deleting every node that has become childless and
non-terminal, stopping at the first still-used node; here each recursion
level inspects the updated child and deletes it from the children list
exactly when it has no children and is not terminal. -/
def Node.removeW : Node → Word → Option (Node × Nat)
  | .mk l e _, [] =>
    if e then some (.mk l false 0, 0) else none
  | .mk l e s, c :: cs =>
    match getChild c l with
    | none => none
    | some child =>
      match child.removeW cs with
      | none => none
      | some (child', pruned) =>
        if child'.next.isEmpty && !child'.end_ then
          some (.mk (delChild c l) e s, pruned + 1)
        else
          some (.mk (setChild c child' l) e s, pruned)

/-- The `Trie` object: root node plus the two maintained counters
(`_count_words`, `_count_nodes`). The counters are Python ints. -/
structure Trie where
  root : Node
  count_words : Int
  count_nodes : Int

/-- `Trie.__init__`: fresh root, 0 words, 1 node. -/
def Trie.empty : Trie := ⟨Node.leaf, 0, 1⟩

/-- `Trie.insert(word, freq)`. -/
def Trie.insert (t : Trie) (word : Word) (freq : ℚ) : Trie :=
  let r := t.root.insertW word freq
  ⟨r.1, t.count_words + (if r.2.2 then 0 else 1), t.count_nodes + r.2.1⟩

/-- `Trie.remove(word)`: the updated trie and the returned Boolean. -/
def Trie.remove (t : Trie) (word : Word) : Trie × Bool :=
  match t.root.removeW word with
  | none => (t, false)
  | some (root', pruned) =>
    (⟨root', t.count_words - 1, t.count_nodes - pruned⟩, true)

/-- `Trie.contains(word)`. -/
def Trie.contains (t : Trie) (word : Word) : Bool :=
  match t.root.trace word with
  | none => false
  | some n => n.end_

/-- Python `min` on two heap entries under tuple comparison
`(freq, word)`: smaller freq first, lexicographically smaller word on
equal freq. -/
def candMin (a b : Cand) : Cand :=
  if a.1 < b.1 then a
  else if b.1 < a.1 then b
  else if a.2 ≤ b.2 then a else b

/-- The minimum entry of the non-empty heap `x :: l` (what `heappop`
would return). -/
def heapMin (x : Cand) (l : List Cand) : Cand := l.foldl candMin x

/-- One step of the bounded-heap loop in `complete.dfs`: push when the heap
still has room, otherwise `heappushpop` (push, then evict the minimum).
The heap is modelled by its multiset of entries as a list; `heapq`'s
internal array order never influences the results, which are re-sorted. -/
def heapStep (k : Nat) (heap : List Cand) (x : Cand) : List Cand :=
  if heap.length < k then x :: heap
  else (x :: heap).erase (heapMin x heap)

/-- `sorted(n.next.keys())` driving the traversal: the children list in
ascending key order (keys are unique in any dict). -/
def sortChildren (l : List (Char × Node)) : List (Char × Node) :=
  List.insertionSort (fun p q => p.1 ≤ q.1) l

/-- One layer of the depth-first traversal of `complete.dfs`: visit each
child in order, descending via `rec`. -/
def dfsStep (rec : Node → Word → List Cand) :
    List (Char × Node) → Word → List Cand
  | [], _ => []
  | (c, m) :: r, w => rec m (w ++ [c]) ++ dfsStep rec r w

/-- Fuelled form of `complete.dfs`, recursion on the fuel so that the
definition computes; `Node.dfs` below supplies enough fuel. The candidates
are listed in visit order: the node's own word first, then the subtrees in
ascending character order. -/
def dfsF : Nat → Node → Word → List Cand
  | 0, _, _ => []
  | fuel + 1, n, w =>
    (if n.end_ then [(n.score, w)] else []) ++
    dfsStep (dfsF fuel) (sortChildren n.next) w

mutual
/-- Total number of nodes of the subtree rooted here (the node itself
included). -/
def Node.countNodes : Node → Nat
  | .mk l _ _ => 1 + countNodesL l
/-- Sum of `countNodes` over a children list. -/
def countNodesL : List (Char × Node) → Nat
  | [] => 0
  | (_, m) :: r => m.countNodes + countNodesL r
end

/-- `complete.dfs`: all `(score, word)` candidates below `n`, words
prefixed by `w`, children visited in ascending character order.
`countNodes` always exceeds the tree depth, so the fuel never runs out. -/
def Node.dfs (n : Node) (w : Word) : List Cand := dfsF n.countNodes n w

/-- The key of the final `sorted(heap, key=lambda x: (-x[0], x[1]))`:
score descending, then word lexicographically ascending. -/
def rankLe (a b : Cand) : Prop := b.1 < a.1 ∨ (a.1 = b.1 ∧ a.2 ≤ b.2)

instance : DecidableRel rankLe := fun a b => by
  unfold rankLe; infer_instance

instance : IsTotal Cand rankLe where
  total a b := by
    rcases lt_trichotomy a.1 b.1 with h | h | h
    · exact Or.inr (Or.inl h)
    · rcases le_total a.2 b.2 with h2 | h2
      · exact Or.inl (Or.inr ⟨h, h2⟩)
      · exact Or.inr (Or.inr ⟨h.symm, h2⟩)
    · exact Or.inl (Or.inl h)

instance : IsTrans Cand rankLe where
  trans a b c hab hbc := by
    rcases hab with h1 | ⟨e1, w1⟩
    · rcases hbc with h2 | ⟨e2, w2⟩
      · exact Or.inl (h2.trans h1)
      · exact Or.inl (e2 ▸ h1)
    · rcases hbc with h2 | ⟨e2, w2⟩
      · exact Or.inl (e1 ▸ h2)
      · exact Or.inr ⟨e1.trans e2, w1.trans w2⟩

/-- The retained heap entries of `complete(pfx, k)`, before the final
sort; empty when the prefix path does not exist. -/
def Trie.completeHeap (t : Trie) (pfx : Word) (k : Nat) : List Cand :=
  match t.root.trace pfx with
  | none => []
  | some n => (n.dfs pfx).foldl (heapStep k) []

/-- The sorted `(score, word)` pairs of `complete(pfx, k)`. -/
def Trie.completePairs (t : Trie) (pfx : Word) (k : Nat) : List Cand :=
  List.insertionSort rankLe (t.completeHeap pfx k)

/-- `Trie.complete(prefix, k)`: trace to the prefix node, run the bounded
heap over the depth-first candidates, and return the words of the retained
pairs sorted by score descending, word ascending on ties. -/
def Trie.complete (t : Trie) (pfx : Word) (k : Nat) : List Word :=
  (t.completePairs pfx k).map Prod.snd

mutual
/-- `stats.depth`: 0 on a childless node, else 1 + the children's maximum. -/
def Node.depth : Node → Nat
  | .mk l _ _ => if l.isEmpty then 0 else 1 + depthL l
/-- Maximum of `depth` over a children list. -/
def depthL : List (Char × Node) → Nat
  | [] => 0
  | (_, m) :: r => max m.depth (depthL r)
end

/-- `Trie.stats()`: `(word_count, height, node_count)`. -/
def Trie.stats (t : Trie) : Int × Nat × Int :=
  (t.count_words, t.root.depth, t.count_nodes)

mutual
/-- Number of terminal nodes of the subtree rooted here. -/
def Node.countTerms : Node → Nat
  | .mk l e _ => (if e then 1 else 0) + countTermsL l
/-- Sum of `countTerms` over a children list. -/
def countTermsL : List (Char × Node) → Nat
  | [] => 0
  | (_, m) :: r => m.countTerms + countTermsL r
end

/-- `contains`, acting on a node: the path exists and ends terminal. -/
def Node.containsW (n : Node) (w : Word) : Bool :=
  match n.trace w with
  | none => false
  | some m => m.end_

/-! ### Basic lemmas -/

@[simp] theorem Node.next_mk (l e s) : (Node.mk l e s).next = l := rfl

@[simp] theorem Node.end_mk (l e s) : (Node.mk l e s).end_ = e := rfl

@[simp] theorem Node.score_mk (l e s) : (Node.mk l e s).score = s := rfl

theorem Trie.contains_eq (t : Trie) (w : Word) :
    t.contains w = t.root.containsW w := rfl

mutual
/-- Simultaneous structural induction on a node and on a children list. -/
def Node.ind (P : Node → Prop) (Q : List (Char × Node) → Prop)
    (hmk : ∀ l e s, Q l → P (.mk l e s)) (hnil : Q [])
    (hcons : ∀ c m r, P m → Q r → Q ((c, m) :: r)) : ∀ n, P n
  | .mk l e s => hmk l e s (Node.indL P Q hmk hnil hcons l)
/-- Companion of `Node.ind` for children lists. -/
def Node.indL (P : Node → Prop) (Q : List (Char × Node) → Prop)
    (hmk : ∀ l e s, Q l → P (.mk l e s)) (hnil : Q [])
    (hcons : ∀ c m r, P m → Q r → Q ((c, m) :: r)) : ∀ l, Q l
  | [] => hnil
  | (c, m) :: r =>
    hcons c m r (Node.ind P Q hmk hnil hcons m)
      (Node.indL P Q hmk hnil hcons r)
end

@[simp] theorem Node.trace_nil (n : Node) : n.trace [] = some n := rfl

theorem Node.trace_cons (n : Node) (c : Char) (cs : Word) :
    n.trace (c :: cs) =
      match getChild c n.next with
      | none => none
      | some m => m.trace cs := by
  cases n; rfl

@[simp] theorem Node.containsW_nil (n : Node) : n.containsW [] = n.end_ := rfl

theorem Node.containsW_cons (n : Node) (c : Char) (cs : Word) :
    n.containsW (c :: cs) =
      match getChild c n.next with
      | none => false
      | some m => m.containsW cs := by
  unfold Node.containsW
  rw [Node.trace_cons]
  cases getChild c n.next <;> rfl

/-- `remove` fails on a node exactly when the word is not contained. -/
theorem removeW_eq_none_iff (w : Word) :
    ∀ n : Node, n.removeW w = none ↔ n.containsW w = false := by
  induction w with
  | nil =>
    intro ⟨l, e, s⟩
    cases e <;> simp [Node.removeW]
  | cons c cs ih =>
    intro ⟨l, e, s⟩
    rw [Node.containsW_cons]
    simp only [Node.removeW, Node.next_mk]
    cases hg : getChild c l with
    | none => simp
    | some child =>
      cases hr : child.removeW cs with
      | none =>
        simp only [hr]
        simpa using (ih child).mp hr
      | some pr =>
        obtain ⟨child', pruned⟩ := pr
        have hc : child.containsW cs = true := by
          rcases h : child.containsW cs
          · exact absurd ((ih child).mpr h) (by simp [hr])
          · rfl
        simp only [hr, hc]
        by_cases hd : (child'.next.isEmpty && !child'.end_) = true <;>
          simp [hd]

/-! ### C1: tie-break on equal scores -/

/-- The trie of the C1 scenario: `ant`, `ape`, `art`, all with score 5. -/
def tieTrie : Trie :=
  ((Trie.empty.insert ['a','n','t'] 5).insert ['a','p','e'] 5).insert
    ['a','r','t'] 5

/-- C1: the claim says `complete("a", 2)` keeps the alphabetically smaller
words on equal scores and returns `["ant", "ape"]`; the code's bounded
min-heap orders entries by `(score, word)` and `heappushpop` evicts the
smallest, so on equal scores the alphabetically smallest word is evicted
first: the call actually returns `["ape", "art"]`. -/
theorem complete_tie_break_bug :
    tieTrie.complete ['a'] 2 = [['a','p','e'], ['a','r','t']] ∧
    tieTrie.complete ['a'] 2 ≠ [['a','n','t'], ['a','p','e']] := by
  decide

/-! ### C5: failed removal leaves the trie unchanged -/

/-- C5: removing a word that is not stored (its path is missing, or the
final node is not terminal — i.e. `contains` is false) returns `false` and
the very same trie: counters, children, flags and scores all unchanged. -/
theorem remove_absent_unchanged (t : Trie) (w : Word)
    (h : t.contains w = false) : t.remove w = (t, false) := by
  unfold Trie.remove
  rw [(removeW_eq_none_iff w t.root).mpr h]

/-- Witness for C5 at a concrete input: removing `"b"` from the trie that
only stores `"a"` fails and changes nothing. -/
theorem remove_absent_unchanged_witness :
    (Trie.empty.insert ['a'] 1).remove ['b']
      = (Trie.empty.insert ['a'] 1, false) :=
  remove_absent_unchanged (Trie.empty.insert ['a'] 1) ['b'] (by decide)

/-! ### C7: stats -/

mutual
/-- The spec's height function, stated in its own words: a node with no
children has height 0, any other node has height 1 plus the maximum height
of its children. Used to compare the code's `depth` against the spec. -/
def specHeight : Node → Nat
  | .mk [] _ _ => 0
  | .mk (p :: r) _ _ => 1 + specHeightL (p :: r)
/-- Maximum of `specHeight` over a children list. -/
def specHeightL : List (Char × Node) → Nat
  | [] => 0
  | (_, m) :: r => max (specHeight m) (specHeightL r)
end

theorem depth_eq_specHeight : ∀ n : Node, n.depth = specHeight n := by
  refine Node.ind (fun n => n.depth = specHeight n)
    (fun l => depthL l = specHeightL l) ?_ rfl ?_
  · intro l e s hl
    cases l with
    | nil => rfl
    | cons p r => simp [Node.depth, specHeight, hl]
  · intro c m r hm hr
    simp [depthL, specHeightL, hm, hr]

/-- C7: `stats` on the empty trie is `(0, 0, 1)`; its height component is
exactly the spec's recursive height (leaf ↦ 0, other node ↦ 1 + maximum
child height); and after inserting `"a"` and `"ab"` into an empty trie,
`stats` returns word count 2, height 2, node count 3. -/
theorem stats_spec :
    Trie.empty.stats = (0, 0, 1) ∧
    (∀ (t : Trie), t.stats.2.1 = specHeight t.root) ∧
    (∀ s1 s2 : ℚ, ((Trie.empty.insert ['a'] s1).insert ['a','b'] s2).stats
      = (2, 2, 3)) := by
  exact ⟨rfl, fun t => depth_eq_specHeight t.root, fun s1 s2 => rfl⟩

/-! ### Heap and traversal lemmas -/

theorem candMin_eq_or (a b : Cand) : candMin a b = a ∨ candMin a b = b := by
  unfold candMin
  split
  · exact Or.inl rfl
  · split
    · exact Or.inr rfl
    · split
      · exact Or.inl rfl
      · exact Or.inr rfl

theorem heapMin_mem : ∀ (l : List Cand) (x : Cand), heapMin x l ∈ x :: l := by
  intro l
  induction l with
  | nil => intro x; simp [heapMin]
  | cons b r ih =>
    intro x
    have h1 : heapMin x (b :: r) = heapMin (candMin x b) r := rfl
    rw [h1]
    rcases candMin_eq_or x b with hc | hc <;> rw [hc]
    · rcases List.mem_cons.mp (ih x) with h | h <;> simp [h]
    · rcases List.mem_cons.mp (ih b) with h | h <;> simp [h]

theorem length_heapStep (k : Nat) (h : List Cand) (x : Cand) :
    (heapStep k h x).length =
      if h.length < k then h.length + 1 else h.length := by
  unfold heapStep
  split
  · simp
  · rw [List.length_erase]
    simp [heapMin_mem h x]

theorem length_foldl_heapStep (k : Nat) :
    ∀ (cs acc : List Cand), acc.length ≤ k →
      (cs.foldl (heapStep k) acc).length ≤ k := by
  intro cs
  induction cs with
  | nil => intro acc h; simpa using h
  | cons x r ih =>
    intro acc h
    refine ih _ ?_
    rw [length_heapStep]
    split <;> omega

theorem foldl_heapStep_zero :
    ∀ cs : List Cand, cs.foldl (heapStep 0) [] = [] := by
  intro cs
  induction cs with
  | nil => rfl
  | cons x r ih =>
    have h : heapStep 0 [] x = [] := by
      unfold heapStep heapMin
      simp
    simpa [h] using ih

theorem foldl_heapStep_no_evict (k : Nat) :
    ∀ (cs acc : List Cand), acc.length + cs.length ≤ k →
      cs.foldl (heapStep k) acc = cs.reverse ++ acc := by
  intro cs
  induction cs with
  | nil => intro acc _; simp
  | cons x r ih =>
    intro acc h
    simp only [List.length_cons] at h
    have hx : heapStep k acc x = x :: acc := by
      unfold heapStep
      rw [if_pos (by omega)]
    rw [List.foldl_cons, hx, ih (x :: acc) (by simp; omega)]
    simp

theorem countNodes_pos (n : Node) : 0 < n.countNodes := by
  obtain ⟨l, e, s⟩ := n
  simp [Node.countNodes]

theorem countNodes_le_of_mem :
    ∀ (l : List (Char × Node)) (c : Char) (m : Node),
      (c, m) ∈ l → m.countNodes ≤ countNodesL l := by
  intro l
  induction l with
  | nil => intro c m h; cases h
  | cons p r ih =>
    intro c m h
    obtain ⟨d, b⟩ := p
    rcases List.mem_cons.mp h with h | h
    · obtain ⟨h1, h2⟩ := Prod.mk.injEq .. ▸ h
      subst h2
      simp [countNodesL]
    · have := ih c m h
      simp [countNodesL]
      omega

theorem dfsStep_congr (f g : Node → Word → List Cand)
    (l : List (Char × Node)) (w : Word)
    (h : ∀ c m, (c, m) ∈ l → f m (w ++ [c]) = g m (w ++ [c])) :
    dfsStep f l w = dfsStep g l w := by
  induction l with
  | nil => rfl
  | cons p r ih =>
    obtain ⟨c, m⟩ := p
    simp only [dfsStep]
    rw [h c m (by simp), ih (fun c m hm => h c m (List.mem_cons_of_mem _ hm))]

theorem mem_sortChildren (l : List (Char × Node)) (p : Char × Node) :
    p ∈ sortChildren l ↔ p ∈ l :=
  (List.perm_insertionSort _ l).mem_iff

theorem dfsF_fuel_eq :
    ∀ (f1 f2 : Nat) (n : Node) (w : Word),
      n.countNodes ≤ f1 → n.countNodes ≤ f2 →
      dfsF f1 n w = dfsF f2 n w := by
  intro f1
  induction f1 with
  | zero => intro f2 n w h1 _; exact absurd h1 (by have := countNodes_pos n; omega)
  | succ a ih =>
    intro f2 n w h1 h2
    cases f2 with
    | zero => exact absurd h2 (by have := countNodes_pos n; omega)
    | succ b =>
      obtain ⟨l, e, s⟩ := n
      simp only [dfsF]
      congr 1
      refine dfsStep_congr _ _ _ _ (fun c m hm => ?_)
      have hm' : (c, m) ∈ l := (mem_sortChildren l (c, m)).mp hm
      have hb : m.countNodes ≤ countNodesL l := countNodes_le_of_mem l c m hm'
      have hc : (Node.mk l e s).countNodes = 1 + countNodesL l := rfl
      exact ih b m (w ++ [c]) (by omega) (by omega)

/-- One-step unfolding of the depth-first candidate collection. -/
theorem dfs_eq (n : Node) (w : Word) :
    n.dfs w = (if n.end_ then [(n.score, w)] else []) ++
      dfsStep (fun m w' => m.dfs w') (sortChildren n.next) w := by
  obtain ⟨l, e, s⟩ := n
  have h : (Node.mk l e s).countNodes = countNodesL l + 1 := by
    simp [Node.countNodes, Nat.add_comm]
  rw [Node.dfs, h]
  simp only [dfsF, Node.next_mk]
  congr 1
  refine dfsStep_congr _ _ _ _ (fun c m hm => ?_)
  have hm' : (c, m) ∈ l := (mem_sortChildren l (c, m)).mp hm
  exact dfsF_fuel_eq _ _ m _ (countNodes_le_of_mem l c m hm') le_rfl

theorem completeHeap_none {t : Trie} {pfx : Word} (k : Nat)
    (h : t.root.trace pfx = none) : t.completeHeap pfx k = [] := by
  unfold Trie.completeHeap
  rw [h]

theorem completeHeap_some {t : Trie} {pfx : Word} {n : Node} (k : Nat)
    (h : t.root.trace pfx = some n) :
    t.completeHeap pfx k = (n.dfs pfx).foldl (heapStep k) [] := by
  unfold Trie.completeHeap
  rw [h]

/-! ### C2: result ordering -/

/-- C2: `complete` returns exactly the words of its retained `(score, word)`
pairs, and those pairs are sorted by score descending with ties broken by
word lexicographically ascending; in particular the concrete ranking run of
the claim returns `["car", "cat"]`. -/
theorem complete_sorted (t : Trie) (pfx : Word) (k : Nat) :
    t.complete pfx k = (t.completePairs pfx k).map Prod.snd ∧
    (t.completePairs pfx k).Sorted rankLe ∧
    ((Trie.empty.insert ['c','a','t'] 3).insert ['c','a','r'] 9
      |>.insert ['c','a','n'] 1).complete ['c','a'] 2
      = [['c','a','r'], ['c','a','t']] :=
  ⟨rfl, List.sorted_insertionSort rankLe _, by decide⟩

/-! ### C3: result count bounds -/

/-- C3: `complete(prefix, k)` returns at most `k` words; `k = 0` gives the
empty sequence; a missing prefix path gives the empty sequence; and when
fewer than `k` stored words extend the prefix (the candidates collected at
the prefix node), the result is a permutation of all of them. -/
theorem complete_count_bounds (t : Trie) (pfx : Word) (k : Nat) :
    (t.complete pfx k).length ≤ k ∧
    (k = 0 → t.complete pfx k = []) ∧
    (t.root.trace pfx = none → t.complete pfx k = []) ∧
    (∀ n : Node, t.root.trace pfx = some n → (n.dfs pfx).length < k →
      (t.complete pfx k).Perm ((n.dfs pfx).map Prod.snd)) := by
  have hlen : ∀ h : List Cand, (List.insertionSort rankLe h).length = h.length :=
    fun h => (List.perm_insertionSort rankLe h).length_eq
  refine ⟨?_, ?_, ?_, ?_⟩
  · unfold Trie.complete Trie.completePairs
    cases ht : t.root.trace pfx with
    | none => simp [completeHeap_none k ht]
    | some n =>
      rw [completeHeap_some k ht]
      simp only [List.length_map, hlen]
      exact length_foldl_heapStep k _ [] (by simp)
  · intro hk
    subst hk
    unfold Trie.complete Trie.completePairs
    cases ht : t.root.trace pfx with
    | none => simp [completeHeap_none 0 ht]
    | some n => simp [completeHeap_some 0 ht, foldl_heapStep_zero]
  · intro ht
    unfold Trie.complete Trie.completePairs
    simp [completeHeap_none k ht]
  · intro n ht hlt
    unfold Trie.complete Trie.completePairs
    rw [completeHeap_some k ht,
      foldl_heapStep_no_evict k _ [] (by simpa using hlt.le)]
    refine List.Perm.map Prod.snd ?_
    exact (List.perm_insertionSort rankLe _).trans (by simp)

/-- Witness for C3 at concrete inputs: with only `"a"` stored,
`complete("a", 0)` is empty, `complete("x", 5)` is empty (missing path),
`complete("a", 2)` has at most 2 results, and `complete("", 5)` returns a
permutation of all candidates below the root. -/
theorem complete_count_bounds_witness :
    ((Trie.empty.insert ['a'] 1).complete ['a'] 0 = []) ∧
    ((Trie.empty.insert ['a'] 1).complete ['x'] 5 = []) ∧
    ((Trie.empty.insert ['a'] 1).complete ['a'] 2).length ≤ 2 ∧
    ((Trie.empty.insert ['a'] 1).complete [] 5).Perm
      (((Trie.empty.insert ['a'] 1).root.dfs []).map Prod.snd) :=
  ⟨(complete_count_bounds (Trie.empty.insert ['a'] 1) ['a'] 0).2.1 rfl,
    (complete_count_bounds (Trie.empty.insert ['a'] 1) ['x'] 5).2.2.1 rfl,
    (complete_count_bounds (Trie.empty.insert ['a'] 1) ['a'] 2).1,
    (complete_count_bounds (Trie.empty.insert ['a'] 1) [] 5).2.2.2 _ rfl
      (by decide)⟩

/-! ### Structural invariants: unique keys, no dead branches -/

/-- `c in node.next`. -/
def hasKey (c : Char) (l : List (Char × Node)) : Bool := (getChild c l).isSome

/-- Keys of a children list are pairwise distinct (always true of a dict). -/
def nodupKeys : List (Char × Node) → Bool
  | [] => true
  | (c, _) :: r => !hasKey c r && nodupKeys r

mutual
/-- Every node of the subtree has a duplicate-free children list. -/
def Node.wf : Node → Bool
  | .mk l _ _ => nodupKeys l && wfL l
/-- `Node.wf` over a children list. -/
def wfL : List (Char × Node) → Bool
  | [] => true
  | (_, m) :: r => m.wf && wfL r
end

mutual
/-- Every strict descendant is used: terminal or with children.
(The node itself is unconstrained, matching the root's exemption.) -/
def Node.clean : Node → Bool
  | .mk l _ _ => cleanL l
/-- `Node.clean` over a children list, including the condition on the
listed children themselves. -/
def cleanL : List (Char × Node) → Bool
  | [] => true
  | (_, m) :: r => (m.end_ || !m.next.isEmpty) && m.clean && cleanL r
end

@[simp] theorem wf_mk (l e s) :
    (Node.mk l e s).wf = (nodupKeys l && wfL l) := by
  rw [Node.wf]

@[simp] theorem clean_mk (l e s) : (Node.mk l e s).clean = cleanL l := by
  rw [Node.clean]

@[simp] theorem countNodes_mk (l e s) :
    (Node.mk l e s).countNodes = 1 + countNodesL l := by
  rw [Node.countNodes]

@[simp] theorem countTerms_mk (l e s) :
    (Node.mk l e s).countTerms = (if e then 1 else 0) + countTermsL l := by
  rw [Node.countTerms]

/-! #### Lookup, update, delete and append on children lists -/

theorem getChild_setChild_self {c : Char} {l : List (Char × Node)}
    (m' : Node) (h : (getChild c l).isSome) :
    getChild c (setChild c m' l) = some m' := by
  induction l with
  | nil => simp [getChild] at h
  | cons p r ih =>
    obtain ⟨d, b⟩ := p
    by_cases hcd : c = d
    · subst hcd
      simp [setChild, getChild]
    · simp only [getChild, setChild, if_neg hcd] at h ⊢
      exact ih h

theorem getChild_setChild_ne {c d : Char} {l : List (Char × Node)}
    (m' : Node) (h : d ≠ c) :
    getChild d (setChild c m' l) = getChild d l := by
  induction l with
  | nil => rfl
  | cons p r ih =>
    obtain ⟨e, b⟩ := p
    by_cases hce : c = e
    · subst hce
      simp [setChild, getChild, if_neg h]
    · by_cases hde : d = e <;> simp [setChild, getChild, if_neg hce, hde, ih]

theorem getChild_append {c d : Char} {l : List (Char × Node)} (x : Node)
    (h : getChild c l = none) :
    getChild d (l ++ [(c, x)]) =
      if d = c then some x else getChild d l := by
  induction l with
  | nil =>
    simp [getChild]
  | cons p r ih =>
    obtain ⟨e, b⟩ := p
    have hce : ¬c = e := by
      intro hc
      subst hc
      simp [getChild] at h
    rw [getChild, if_neg hce] at h
    by_cases hde : d = e
    · subst hde
      have hdc : ¬d = c := fun hh => hce hh.symm
      simp [getChild, if_neg hdc]
    · simp [getChild, if_neg hde, ih h]

theorem getChild_delChild_ne {c d : Char} {l : List (Char × Node)}
    (h : d ≠ c) : getChild d (delChild c l) = getChild d l := by
  induction l with
  | nil => rfl
  | cons p r ih =>
    obtain ⟨e, b⟩ := p
    by_cases hce : c = e
    · subst hce
      simp [delChild, getChild, if_neg h]
    · by_cases hde : d = e <;> simp [delChild, getChild, if_neg hce, hde, ih]

theorem getChild_delChild_self {c : Char} {l : List (Char × Node)}
    (h : nodupKeys l = true) : getChild c (delChild c l) = none := by
  induction l with
  | nil => rfl
  | cons p r ih =>
    obtain ⟨d, b⟩ := p
    simp only [nodupKeys, Bool.and_eq_true, Bool.not_eq_true'] at h
    by_cases hcd : c = d
    · subst hcd
      simp only [delChild, if_pos rfl]
      have h1 : (getChild c r).isSome = false := h.1
      cases hg : getChild c r with
      | none => exact hg
      | some m => rw [hg] at h1; simp at h1
    · simp [delChild, getChild, if_neg hcd, ih h.2]

theorem getChild_mem {c : Char} {m : Node} :
    ∀ {l : List (Char × Node)}, getChild c l = some m → (c, m) ∈ l := by
  intro l
  induction l with
  | nil => intro h; cases h
  | cons p r ih =>
    obtain ⟨d, b⟩ := p
    intro h
    by_cases hcd : c = d
    · subst hcd
      simp [getChild] at h
      simp [h]
    · simp only [getChild, if_neg hcd] at h
      exact List.mem_cons_of_mem _ (ih h)

/-! #### Counting over updated children lists -/

theorem countNodesL_setChild {c : Char} {l : List (Char × Node)}
    {child : Node} (m' : Node) (h : getChild c l = some child) :
    countNodesL (setChild c m' l) + child.countNodes =
      countNodesL l + m'.countNodes := by
  induction l with
  | nil => cases h
  | cons p r ih =>
    obtain ⟨d, b⟩ := p
    by_cases hcd : c = d
    · subst hcd
      simp [getChild] at h
      subst h
      simp [setChild, countNodesL]
      omega
    · simp only [getChild, if_neg hcd] at h
      simp only [setChild, if_neg hcd, countNodesL]
      have := ih h
      omega

theorem countTermsL_setChild {c : Char} {l : List (Char × Node)}
    {child : Node} (m' : Node) (h : getChild c l = some child) :
    countTermsL (setChild c m' l) + child.countTerms =
      countTermsL l + m'.countTerms := by
  induction l with
  | nil => cases h
  | cons p r ih =>
    obtain ⟨d, b⟩ := p
    by_cases hcd : c = d
    · subst hcd
      simp [getChild] at h
      subst h
      simp [setChild, countTermsL]
      omega
    · simp only [getChild, if_neg hcd] at h
      simp only [setChild, if_neg hcd, countTermsL]
      have := ih h
      omega

theorem countNodesL_delChild {c : Char} {l : List (Char × Node)}
    {child : Node} (h : getChild c l = some child) :
    countNodesL (delChild c l) + child.countNodes = countNodesL l := by
  induction l with
  | nil => cases h
  | cons p r ih =>
    obtain ⟨d, b⟩ := p
    by_cases hcd : c = d
    · subst hcd
      simp [getChild] at h
      subst h
      simp [delChild, countNodesL]
      omega
    · simp only [getChild, if_neg hcd] at h
      simp only [delChild, if_neg hcd, countNodesL]
      have := ih h
      omega

theorem countTermsL_delChild {c : Char} {l : List (Char × Node)}
    {child : Node} (h : getChild c l = some child) :
    countTermsL (delChild c l) + child.countTerms = countTermsL l := by
  induction l with
  | nil => cases h
  | cons p r ih =>
    obtain ⟨d, b⟩ := p
    by_cases hcd : c = d
    · subst hcd
      simp [getChild] at h
      subst h
      simp [delChild, countTermsL]
      omega
    · simp only [getChild, if_neg hcd] at h
      simp only [delChild, if_neg hcd, countTermsL]
      have := ih h
      omega

theorem countNodesL_append (l : List (Char × Node)) (c : Char) (x : Node) :
    countNodesL (l ++ [(c, x)]) = countNodesL l + x.countNodes := by
  induction l with
  | nil => simp [countNodesL]
  | cons p r ih =>
    obtain ⟨d, b⟩ := p
    simp [countNodesL, ih]
    omega

theorem countTermsL_append (l : List (Char × Node)) (c : Char) (x : Node) :
    countTermsL (l ++ [(c, x)]) = countTermsL l + x.countTerms := by
  induction l with
  | nil => simp [countTermsL]
  | cons p r ih =>
    obtain ⟨d, b⟩ := p
    simp [countTermsL, ih]
    omega

/-! #### Invariant preservation by insert -/

@[simp] theorem containsW_leaf (v : Word) : Node.leaf.containsW v = false := by
  cases v <;> rfl

theorem length_setChild (c : Char) (m' : Node) (l : List (Char × Node)) :
    (setChild c m' l).length = l.length := by
  induction l with
  | nil => rfl
  | cons p r ih =>
    obtain ⟨d, b⟩ := p
    by_cases hcd : c = d <;> simp [setChild, hcd, ih]

theorem insertW_counts : ∀ (w : Word) (n : Node) (s : ℚ),
    (n.insertW w s).1.countNodes = n.countNodes + (n.insertW w s).2.1 ∧
    (n.insertW w s).1.countTerms =
      n.countTerms + (if (n.insertW w s).2.2 then 0 else 1) := by
  intro w
  induction w with
  | nil =>
    intro ⟨l, e, s0⟩ s
    cases e <;> simp [Node.insertW] <;> omega
  | cons c cs ih =>
    intro ⟨l, e, s0⟩ s
    cases hg : getChild c l with
    | some child =>
      simp only [Node.insertW, hg]
      have h1 := countNodesL_setChild (child.insertW cs s).1 hg
      have h2 := countTermsL_setChild (child.insertW cs s).1 hg
      have h3 := ih child s
      simp only [countNodes_mk, countTerms_mk] at h3 ⊢
      constructor
      · omega
      · rcases h3 with ⟨_, h3b⟩
        cases hb : (child.insertW cs s).2.2 <;>
          rw [hb] at h3b <;> simp at h3b <;> cases e <;> simp <;> omega
    | none =>
      simp only [Node.insertW, hg]
      have h1 := countNodesL_append l c (Node.leaf.insertW cs s).1
      have h2 := countTermsL_append l c (Node.leaf.insertW cs s).1
      obtain ⟨h3a, h3b⟩ := ih Node.leaf s
      simp only [countNodes_mk, countTerms_mk, countNodesL, countTermsL,
        Node.leaf, Bool.false_eq_true, if_false] at h1 h2 h3a h3b ⊢
      constructor
      · rw [h1, h3a]
        omega
      · rw [h2, h3b]
        omega

theorem hasKey_setChild (c d : Char) (m' : Node) (l : List (Char × Node)) :
    hasKey d (setChild c m' l) = hasKey d l := by
  induction l with
  | nil => rfl
  | cons p r ih =>
    obtain ⟨e, b⟩ := p
    by_cases hce : c = e
    · subst hce
      by_cases hdc : d = c <;> simp [setChild, hasKey, getChild, hdc]
    · by_cases hde : d = e <;>
        simp [setChild, hasKey, getChild, if_neg hce, hde] <;>
        simpa [hasKey] using ih

theorem nodupKeys_setChild (c : Char) (m' : Node) (l : List (Char × Node)) :
    nodupKeys (setChild c m' l) = nodupKeys l := by
  induction l with
  | nil => rfl
  | cons p r ih =>
    obtain ⟨e, b⟩ := p
    by_cases hce : c = e
    · subst hce
      simp [setChild, nodupKeys]
    · simp [setChild, if_neg hce, nodupKeys, hasKey_setChild, ih]

theorem wfL_setChild {c : Char} {child m' : Node} {l : List (Char × Node)}
    (hg : getChild c l = some child) (hm : m'.wf = true)
    (hl : wfL l = true) : wfL (setChild c m' l) = true := by
  induction l with
  | nil => cases hg
  | cons p r ih =>
    obtain ⟨d, b⟩ := p
    simp only [wfL, Bool.and_eq_true] at hl
    by_cases hcd : c = d
    · subst hcd
      simp [setChild, wfL, hm, hl.2]
    · simp only [getChild, if_neg hcd] at hg
      simp [setChild, if_neg hcd, wfL, hl.1, ih hg hl.2]

theorem wfL_mem {l : List (Char × Node)} (h : wfL l = true) {c : Char}
    {m : Node} (hm : (c, m) ∈ l) : m.wf = true := by
  induction l with
  | nil => cases hm
  | cons p r ih =>
    obtain ⟨d, b⟩ := p
    simp only [wfL, Bool.and_eq_true] at h
    rcases List.mem_cons.mp hm with he | he
    · cases he
      exact h.1
    · exact ih h.2 he

theorem nodupKeys_append {c : Char} {l : List (Char × Node)} (x : Node)
    (hg : getChild c l = none) (h : nodupKeys l = true) :
    nodupKeys (l ++ [(c, x)]) = true := by
  induction l with
  | nil => simp [nodupKeys, hasKey, getChild]
  | cons p r ih =>
    obtain ⟨d, b⟩ := p
    have hcd : ¬c = d := by
      intro hc
      subst hc
      simp [getChild] at hg
    rw [getChild, if_neg hcd] at hg
    simp only [nodupKeys, Bool.and_eq_true, Bool.not_eq_true'] at h
    have hdc : ¬d = c := fun hh => hcd hh.symm
    simp only [List.cons_append, nodupKeys, Bool.and_eq_true,
      Bool.not_eq_true']
    refine ⟨?_, ih hg h.2⟩
    simp [hasKey, getChild_append x hg, if_neg hdc]
    simpa [hasKey] using h.1

theorem wfL_append {l : List (Char × Node)} (c : Char) {x : Node}
    (h : wfL l = true) (hx : x.wf = true) : wfL (l ++ [(c, x)]) = true := by
  induction l with
  | nil => simp [wfL, hx]
  | cons p r ih =>
    obtain ⟨d, b⟩ := p
    simp only [wfL, Bool.and_eq_true] at h
    simp only [List.cons_append, wfL, Bool.and_eq_true]
    exact ⟨h.1, ih h.2⟩

theorem insertW_wf : ∀ (w : Word) (n : Node) (s : ℚ),
    n.wf = true → (n.insertW w s).1.wf = true := by
  intro w
  induction w with
  | nil =>
    intro ⟨l, e, s0⟩ s h
    simpa [Node.insertW] using h
  | cons c cs ih =>
    intro ⟨l, e, s0⟩ s h
    simp only [wf_mk, Bool.and_eq_true] at h
    cases hg : getChild c l with
    | some child =>
      have hcw : child.wf = true := wfL_mem h.2 (getChild_mem hg)
      simp only [Node.insertW, hg, wf_mk, Bool.and_eq_true,
        nodupKeys_setChild]
      exact ⟨h.1, wfL_setChild hg (ih child s hcw) h.2⟩
    | none =>
      simp only [Node.insertW, hg, wf_mk, Bool.and_eq_true]
      exact ⟨nodupKeys_append _ hg h.1,
        wfL_append c h.2 (ih Node.leaf s (by rfl))⟩

theorem insertW_used : ∀ (w : Word) (n : Node) (s : ℚ),
    ((n.insertW w s).1.end_ || !(n.insertW w s).1.next.isEmpty) = true := by
  intro w
  induction w with
  | nil => intro ⟨l, e, s0⟩ s; simp [Node.insertW]
  | cons c cs _ =>
    intro ⟨l, e, s0⟩ s
    cases hg : getChild c l with
    | some child =>
      simp only [Node.insertW, hg]
      cases l with
      | nil => cases hg
      | cons p r =>
        obtain ⟨d, b⟩ := p
        simp only [Node.end_mk, Node.next_mk]
        by_cases hcd : c = d <;> simp [setChild, hcd]
    | none => simp [Node.insertW, hg]

theorem cleanL_mem {l : List (Char × Node)} (h : cleanL l = true) {c : Char}
    {m : Node} (hm : (c, m) ∈ l) :
    (m.end_ || !m.next.isEmpty) = true ∧ m.clean = true := by
  induction l with
  | nil => cases hm
  | cons p r ih =>
    obtain ⟨d, b⟩ := p
    simp only [cleanL, Bool.and_eq_true] at h
    rcases List.mem_cons.mp hm with he | he
    · cases he
      exact ⟨h.1.1, h.1.2⟩
    · exact ih h.2 he

theorem cleanL_setChild {c : Char} {child m' : Node} {l : List (Char × Node)}
    (hg : getChild c l = some child)
    (hok : (m'.end_ || !m'.next.isEmpty) = true) (hcl : m'.clean = true)
    (h : cleanL l = true) : cleanL (setChild c m' l) = true := by
  induction l with
  | nil => cases hg
  | cons p r ih =>
    obtain ⟨d, b⟩ := p
    simp only [cleanL, Bool.and_eq_true] at h
    by_cases hcd : c = d
    · subst hcd
      simp [setChild, cleanL, hok, hcl, h.2]
    · simp only [getChild, if_neg hcd] at hg
      simp [setChild, if_neg hcd, cleanL, h.1.1, h.1.2, ih hg h.2]

theorem cleanL_append {l : List (Char × Node)} (c : Char) {x : Node}
    (h : cleanL l = true) (hok : (x.end_ || !x.next.isEmpty) = true)
    (hx : x.clean = true) : cleanL (l ++ [(c, x)]) = true := by
  induction l with
  | nil => simp [cleanL, hok, hx]
  | cons p r ih =>
    obtain ⟨d, b⟩ := p
    simp only [cleanL, Bool.and_eq_true] at h
    simp only [List.cons_append, cleanL, Bool.and_eq_true]
    exact ⟨⟨h.1.1, h.1.2⟩, ih h.2⟩

theorem insertW_clean : ∀ (w : Word) (n : Node) (s : ℚ),
    n.clean = true → (n.insertW w s).1.clean = true := by
  intro w
  induction w with
  | nil =>
    intro ⟨l, e, s0⟩ s h
    simpa [Node.insertW] using h
  | cons c cs ih =>
    intro ⟨l, e, s0⟩ s h
    simp only [clean_mk] at h
    cases hg : getChild c l with
    | some child =>
      have hc := cleanL_mem h (getChild_mem hg)
      simp only [Node.insertW, hg, clean_mk]
      exact cleanL_setChild hg (insertW_used cs child s)
        (ih child s hc.2) h
    | none =>
      simp only [Node.insertW, hg, clean_mk]
      exact cleanL_append c h (insertW_used cs Node.leaf s)
        (ih Node.leaf s (by rfl))

theorem Node.containsW_cons_some {n m : Node} {c : Char} (cs : Word)
    (h : getChild c n.next = some m) :
    n.containsW (c :: cs) = m.containsW cs := by
  rw [Node.containsW_cons, h]

theorem Node.containsW_cons_none {n : Node} {c : Char} (cs : Word)
    (h : getChild c n.next = none) : n.containsW (c :: cs) = false := by
  rw [Node.containsW_cons, h]

theorem insertW_containsW : ∀ (w : Word) (n : Node) (s : ℚ) (v : Word),
    (n.insertW w s).1.containsW v =
      (if v = w then true else n.containsW v) := by
  intro w
  induction w with
  | nil =>
    intro ⟨l, e, s0⟩ s v
    cases v with
    | nil => simp [Node.insertW]
    | cons d ds =>
      simp only [Node.insertW, if_neg (List.cons_ne_nil d ds)]
      cases hd : getChild d l with
      | none =>
        rw [Node.containsW_cons_none ds (by simpa using hd),
          Node.containsW_cons_none ds (by simpa using hd)]
      | some m =>
        rw [Node.containsW_cons_some ds (by simpa using hd),
          Node.containsW_cons_some ds (by simpa using hd)]
  | cons c cs ih =>
    intro ⟨l, e, s0⟩ s v
    cases hg : getChild c l with
    | some child =>
      simp only [Node.insertW, hg]
      cases v with
      | nil => simp [Node.containsW]
      | cons d ds =>
        by_cases hdc : d = c
        · subst hdc
          have h1 : getChild d (setChild d (child.insertW cs s).1 l)
              = some (child.insertW cs s).1 :=
            getChild_setChild_self _ (by simp [hg])
          rw [Node.containsW_cons_some ds (by simpa using h1),
            Node.containsW_cons_some ds (by simpa using hg),
            ih child s ds]
          by_cases hds : ds = cs <;> simp [hds]
        · have h1 : getChild d (setChild c (child.insertW cs s).1 l)
              = getChild d l := getChild_setChild_ne _ hdc
          have hv : ¬(d :: ds = c :: cs) := by simp [hdc]
          rw [if_neg hv]
          cases hd : getChild d l with
          | none =>
            rw [Node.containsW_cons_none ds (by simp [h1, hd]),
              Node.containsW_cons_none ds (by simpa using hd)]
          | some m =>
            rw [Node.containsW_cons_some (m := m) ds (by simp [h1, hd]),
              Node.containsW_cons_some (m := m) ds (by simpa using hd)]
    | none =>
      simp only [Node.insertW, hg]
      cases v with
      | nil => simp [Node.containsW]
      | cons d ds =>
        have ha := getChild_append (l := l) (c := c) (d := d)
          (Node.leaf.insertW cs s).1 hg
        by_cases hdc : d = c
        · subst hdc
          rw [if_pos rfl] at ha
          rw [Node.containsW_cons_some ds (by simpa using ha),
            ih Node.leaf s ds,
            Node.containsW_cons_none ds (by simpa using hg)]
          by_cases hds : ds = cs <;> simp [hds]
        · rw [if_neg hdc] at ha
          have hv : ¬(d :: ds = c :: cs) := by simp [hdc]
          rw [if_neg hv]
          cases hd : getChild d l with
          | none =>
            rw [Node.containsW_cons_none ds (by simp [ha, hd]),
              Node.containsW_cons_none ds (by simpa using hd)]
          | some m =>
            rw [Node.containsW_cons_some (m := m) ds (by simp [ha, hd]),
              Node.containsW_cons_some (m := m) ds (by simpa using hd)]

theorem insertW_trace : ∀ (w : Word) (n : Node) (s : ℚ),
    ∃ l : List (Char × Node),
      (n.insertW w s).1.trace w = some (Node.mk l true s) := by
  intro w
  induction w with
  | nil =>
    intro ⟨l, e, s0⟩ s
    exact ⟨l, rfl⟩
  | cons c cs ih =>
    intro ⟨l, e, s0⟩ s
    cases hg : getChild c l with
    | some child =>
      simp only [Node.insertW, hg]
      obtain ⟨l', h'⟩ := ih child s
      refine ⟨l', ?_⟩
      rw [Node.trace_cons]
      simp only [Node.next_mk]
      rw [getChild_setChild_self _ (by simp [hg])]
      exact h'
    | none =>
      simp only [Node.insertW, hg]
      obtain ⟨l', h'⟩ := ih Node.leaf s
      refine ⟨l', ?_⟩
      rw [Node.trace_cons]
      simp only [Node.next_mk]
      rw [getChild_append _ hg, if_pos rfl]
      exact h'

/-! #### Invariant preservation by remove -/

theorem hasKey_delChild {c d : Char} {l : List (Char × Node)}
    (h : hasKey d (delChild c l) = true) : hasKey d l = true := by
  induction l with
  | nil => exact h
  | cons p r ih =>
    obtain ⟨a, b⟩ := p
    by_cases hca : c = a
    · subst hca
      simp only [delChild, if_pos rfl] at h
      simp only [hasKey, getChild]
      by_cases hdc : d = c
      · simp [hdc]
      · simp only [if_neg hdc]
        exact h
    · simp only [delChild, if_neg hca] at h
      simp only [hasKey, getChild] at h ⊢
      by_cases hda : d = a
      · simp [hda]
      · simp only [if_neg hda] at h ⊢
        exact ih h

theorem nodupKeys_delChild (c : Char) {l : List (Char × Node)}
    (h : nodupKeys l = true) : nodupKeys (delChild c l) = true := by
  induction l with
  | nil => exact h
  | cons p r ih =>
    obtain ⟨d, b⟩ := p
    simp only [nodupKeys, Bool.and_eq_true, Bool.not_eq_true'] at h
    by_cases hcd : c = d
    · subst hcd
      simpa [delChild] using h.2
    · simp only [delChild, if_neg hcd, nodupKeys, Bool.and_eq_true,
        Bool.not_eq_true']
      refine ⟨?_, ih h.2⟩
      cases hk : hasKey d (delChild c r) with
      | false => rfl
      | true => exact absurd (hasKey_delChild hk) (by simp [h.1])

theorem wfL_delChild (c : Char) {l : List (Char × Node)}
    (h : wfL l = true) : wfL (delChild c l) = true := by
  induction l with
  | nil => exact h
  | cons p r ih =>
    obtain ⟨d, b⟩ := p
    simp only [wfL, Bool.and_eq_true] at h
    by_cases hcd : c = d
    · subst hcd
      simpa [delChild] using h.2
    · simp only [delChild, if_neg hcd, wfL, Bool.and_eq_true]
      exact ⟨h.1, ih h.2⟩

theorem cleanL_delChild (c : Char) {l : List (Char × Node)}
    (h : cleanL l = true) : cleanL (delChild c l) = true := by
  induction l with
  | nil => exact h
  | cons p r ih =>
    obtain ⟨d, b⟩ := p
    simp only [cleanL, Bool.and_eq_true] at h
    by_cases hcd : c = d
    · subst hcd
      simpa [delChild] using h.2
    · simp only [delChild, if_neg hcd, cleanL, Bool.and_eq_true]
      exact ⟨⟨h.1.1, h.1.2⟩, ih h.2⟩

theorem removeW_counts : ∀ (w : Word) (n n' : Node) (p : Nat),
    n.removeW w = some (n', p) →
    n'.countNodes + p = n.countNodes ∧
    n'.countTerms + 1 = n.countTerms := by
  intro w
  induction w with
  | nil =>
    intro ⟨l, e, s⟩ n' p h
    cases e with
    | false => simp [Node.removeW] at h
    | true =>
      simp only [Node.removeW, if_true, Option.some.injEq,
        Prod.mk.injEq] at h
      obtain ⟨h1, h2⟩ := h
      subst h1
      subst h2
      simp [Nat.add_comm]
  | cons c cs ih =>
    intro ⟨l, e, s⟩ n' p h
    cases hg : getChild c l with
    | none => simp [Node.removeW, hg] at h
    | some child =>
      cases hr : child.removeW cs with
      | none => simp [Node.removeW, hg, hr] at h
      | some pr =>
        obtain ⟨child', p0⟩ := pr
        obtain ⟨hcn, hct⟩ := ih child child' p0 hr
        simp only [Node.removeW, hg, hr] at h
        by_cases hd : (child'.next.isEmpty && !child'.end_) = true
        · rw [if_pos hd] at h
          simp only [Option.some.injEq, Prod.mk.injEq] at h
          obtain ⟨h1, h2⟩ := h
          subst h1
          subst h2
          obtain ⟨l2, e2, s2⟩ := child'
          simp only [Node.next_mk, Node.end_mk, Bool.and_eq_true,
            Bool.not_eq_true', List.isEmpty_iff] at hd
          obtain ⟨hl2, he2⟩ := hd
          subst hl2
          subst he2
          have hn := countNodesL_delChild hg
          have ht := countTermsL_delChild hg
          simp only [countNodes_mk, countTerms_mk, countNodesL,
            countTermsL, Bool.false_eq_true, if_false] at hcn hct ⊢
          omega
        · rw [if_neg hd] at h
          simp only [Option.some.injEq, Prod.mk.injEq] at h
          obtain ⟨h1, h2⟩ := h
          subst h1
          subst h2
          have hn := countNodesL_setChild child' hg
          have ht := countTermsL_setChild child' hg
          simp only [countNodes_mk, countTerms_mk] at hcn hct ⊢
          omega

theorem removeW_wf : ∀ (w : Word) (n n' : Node) (p : Nat),
    n.wf = true → n.removeW w = some (n', p) → n'.wf = true := by
  intro w
  induction w with
  | nil =>
    intro ⟨l, e, s⟩ n' p hw h
    cases e with
    | false => simp [Node.removeW] at h
    | true =>
      simp only [Node.removeW, if_true, Option.some.injEq,
        Prod.mk.injEq] at h
      obtain ⟨h1, _⟩ := h
      subst h1
      simpa using hw
  | cons c cs ih =>
    intro ⟨l, e, s⟩ n' p hw h
    simp only [wf_mk, Bool.and_eq_true] at hw
    cases hg : getChild c l with
    | none => simp [Node.removeW, hg] at h
    | some child =>
      cases hr : child.removeW cs with
      | none => simp [Node.removeW, hg, hr] at h
      | some pr =>
        obtain ⟨child', p0⟩ := pr
        have hcw : child'.wf = true :=
          ih child child' p0 (wfL_mem hw.2 (getChild_mem hg)) hr
        simp only [Node.removeW, hg, hr] at h
        by_cases hd : (child'.next.isEmpty && !child'.end_) = true
        · rw [if_pos hd] at h
          simp only [Option.some.injEq, Prod.mk.injEq] at h
          obtain ⟨h1, _⟩ := h
          subst h1
          simp only [wf_mk, Bool.and_eq_true]
          exact ⟨nodupKeys_delChild c hw.1, wfL_delChild c hw.2⟩
        · rw [if_neg hd] at h
          simp only [Option.some.injEq, Prod.mk.injEq] at h
          obtain ⟨h1, _⟩ := h
          subst h1
          simp only [wf_mk, Bool.and_eq_true, nodupKeys_setChild]
          exact ⟨hw.1, wfL_setChild hg hcw hw.2⟩

theorem removeW_clean : ∀ (w : Word) (n n' : Node) (p : Nat),
    n.clean = true → n.removeW w = some (n', p) → n'.clean = true := by
  intro w
  induction w with
  | nil =>
    intro ⟨l, e, s⟩ n' p hc h
    cases e with
    | false => simp [Node.removeW] at h
    | true =>
      simp only [Node.removeW, if_true, Option.some.injEq,
        Prod.mk.injEq] at h
      obtain ⟨h1, _⟩ := h
      subst h1
      simpa using hc
  | cons c cs ih =>
    intro ⟨l, e, s⟩ n' p hc h
    simp only [clean_mk] at hc
    cases hg : getChild c l with
    | none => simp [Node.removeW, hg] at h
    | some child =>
      cases hr : child.removeW cs with
      | none => simp [Node.removeW, hg, hr] at h
      | some pr =>
        obtain ⟨child', p0⟩ := pr
        have hcc : child'.clean = true :=
          ih child child' p0 (cleanL_mem hc (getChild_mem hg)).2 hr
        simp only [Node.removeW, hg, hr] at h
        by_cases hd : (child'.next.isEmpty && !child'.end_) = true
        · rw [if_pos hd] at h
          simp only [Option.some.injEq, Prod.mk.injEq] at h
          obtain ⟨h1, _⟩ := h
          subst h1
          simpa [clean_mk] using cleanL_delChild c hc
        · rw [if_neg hd] at h
          simp only [Option.some.injEq, Prod.mk.injEq] at h
          obtain ⟨h1, _⟩ := h
          subst h1
          have hok : (child'.end_ || !child'.next.isEmpty) = true := by
            cases he : child'.end_ <;>
              cases hie : child'.next.isEmpty <;>
              simp [he, hie] at hd ⊢
          simpa [clean_mk] using cleanL_setChild hg hok hcc hc

@[simp] theorem containsW_dead (s : ℚ) (v : Word) :
    (Node.mk [] false s).containsW v = false := by
  cases v <;> rfl

theorem removeW_containsW : ∀ (w : Word) (n n' : Node) (p : Nat),
    n.wf = true → n.removeW w = some (n', p) → ∀ v : Word,
    n'.containsW v = (if v = w then false else n.containsW v) := by
  intro w
  induction w with
  | nil =>
    intro ⟨l, e, s⟩ n' p _ h v
    cases e with
    | false => simp [Node.removeW] at h
    | true =>
      simp only [Node.removeW, if_true, Option.some.injEq,
        Prod.mk.injEq] at h
      obtain ⟨h1, _⟩ := h
      subst h1
      cases v with
      | nil => simp
      | cons d ds =>
        rw [if_neg (List.cons_ne_nil d ds), Node.containsW_cons,
          Node.containsW_cons]
        simp only [Node.next_mk]
  | cons c cs ih =>
    intro ⟨l, e, s⟩ n' p hw h v
    simp only [wf_mk, Bool.and_eq_true] at hw
    cases hg : getChild c l with
    | none => simp [Node.removeW, hg] at h
    | some child =>
      cases hr : child.removeW cs with
      | none => simp [Node.removeW, hg, hr] at h
      | some pr =>
        obtain ⟨child', p0⟩ := pr
        have hih := ih child child' p0
          (wfL_mem hw.2 (getChild_mem hg)) hr
        simp only [Node.removeW, hg, hr] at h
        by_cases hd : (child'.next.isEmpty && !child'.end_) = true
        · rw [if_pos hd] at h
          simp only [Option.some.injEq, Prod.mk.injEq] at h
          obtain ⟨h1, _⟩ := h
          subst h1
          obtain ⟨l2, e2, s2⟩ := child'
          simp only [Node.next_mk, Node.end_mk, Bool.and_eq_true,
            Bool.not_eq_true', List.isEmpty_iff] at hd
          obtain ⟨hl2, he2⟩ := hd
          subst hl2
          subst he2
          cases v with
          | nil => simp [Node.containsW]
          | cons d ds =>
            by_cases hdc : d = c
            · subst hdc
              rw [Node.containsW_cons_none ds
                (by simpa using getChild_delChild_self hw.1)]
              by_cases hds : ds = cs
              · subst hds
                simp
              · have hv : ¬(d :: ds = d :: cs) := by simp [hds]
                rw [if_neg hv, Node.containsW_cons_some (m := child) ds
                  (by simpa using hg)]
                have := hih ds
                rw [if_neg hds] at this
                simpa using this.symm
            · have hv : ¬(d :: ds = c :: cs) := by simp [hdc]
              rw [if_neg hv]
              have hgd : getChild d (delChild c l) = getChild d l :=
                getChild_delChild_ne hdc
              cases hdl : getChild d l with
              | none =>
                rw [Node.containsW_cons_none ds (by simp [hgd, hdl]),
                  Node.containsW_cons_none ds (by simpa using hdl)]
              | some m =>
                rw [Node.containsW_cons_some (m := m) ds
                    (by simp [hgd, hdl]),
                  Node.containsW_cons_some (m := m) ds
                    (by simpa using hdl)]
        · rw [if_neg hd] at h
          simp only [Option.some.injEq, Prod.mk.injEq] at h
          obtain ⟨h1, _⟩ := h
          subst h1
          cases v with
          | nil => simp [Node.containsW]
          | cons d ds =>
            by_cases hdc : d = c
            · subst hdc
              have hset : getChild d (setChild d child' l) = some child' :=
                getChild_setChild_self child' (by simp [hg])
              rw [Node.containsW_cons_some (m := child') ds
                  (by simpa using hset),
                hih ds,
                Node.containsW_cons_some (m := child) ds
                  (by simpa using hg)]
              by_cases hds : ds = cs <;> simp [hds]
            · have hv : ¬(d :: ds = c :: cs) := by simp [hdc]
              rw [if_neg hv]
              have hgd : getChild d (setChild c child' l) = getChild d l :=
                getChild_setChild_ne child' hdc
              cases hdl : getChild d l with
              | none =>
                rw [Node.containsW_cons_none ds (by simp [hgd, hdl]),
                  Node.containsW_cons_none ds (by simpa using hdl)]
              | some m =>
                rw [Node.containsW_cons_some (m := m) ds
                    (by simp [hgd, hdl]),
                  Node.containsW_cons_some (m := m) ds
                    (by simpa using hdl)]

/-! #### Reachable trie states and their representation invariant -/

/-- The representation invariant maintained by the trie: well-formed
children dicts, no dead branches below the root, and both counters equal
to the corresponding traversal counts. -/
def Trie.good (t : Trie) : Prop :=
  t.root.wf = true ∧ t.root.clean = true ∧
  t.count_words = (t.root.countTerms : Int) ∧
  t.count_nodes = (t.root.countNodes : Int)

/-- Trie states reachable from `Trie.__init__()` by the public interface.
`contains`, `complete`, `stats` and `items` are queries: in this embedding
they are plain functions out of `Trie` and never produce a new state, so
closure under `insert` and `remove` covers every call sequence. -/
inductive Trie.Reachable : Trie → Prop
  | empty : Trie.Reachable Trie.empty
  | insert (t : Trie) (w : Word) (s : ℚ) :
      Trie.Reachable t → Trie.Reachable (t.insert w s)
  | remove (t : Trie) (w : Word) :
      Trie.Reachable t → Trie.Reachable (t.remove w).1

theorem good_empty : Trie.empty.good :=
  ⟨rfl, rfl, rfl, rfl⟩

theorem good_insert {t : Trie} (w : Word) (s : ℚ) (h : t.good) :
    (t.insert w s).good := by
  obtain ⟨h1, h2, h3, h4⟩ := h
  have hc := insertW_counts w t.root s
  refine ⟨insertW_wf w t.root s h1, insertW_clean w t.root s h2, ?_, ?_⟩
  · simp only [Trie.insert]
    rw [h3, hc.2]
    cases hb : (t.root.insertW w s).2.2 <;> simp [hb]
  · simp only [Trie.insert]
    rw [h4, hc.1]
    push_cast
    ring

theorem good_remove {t : Trie} (w : Word) (h : t.good) :
    ((t.remove w).1).good := by
  obtain ⟨h1, h2, h3, h4⟩ := h
  unfold Trie.remove
  cases hr : t.root.removeW w with
  | none => exact ⟨h1, h2, h3, h4⟩
  | some pr =>
    obtain ⟨root', p⟩ := pr
    obtain ⟨hcn, hct⟩ := removeW_counts w t.root root' p hr
    refine ⟨removeW_wf w t.root root' p h1 hr,
      removeW_clean w t.root root' p h2 hr, ?_, ?_⟩
    · simp only
      rw [h3]
      omega
    · simp only
      rw [h4]
      omega

theorem reachable_good : ∀ t : Trie, t.Reachable → t.good := by
  intro t h
  induction h with
  | empty => exact good_empty
  | insert t w s _ ih => exact good_insert w s ih
  | remove t w _ ih => exact good_remove w ih

/-! ### C8: counter invariant -/

/-- C8: in every state reachable from the empty trie by the public
operations (only `insert` and `remove` produce states; the queries
`contains`, `complete`, `stats`, `items` are pure), `word_count` equals
the number of terminal nodes reachable from the root and `node_count`
equals the total number of reachable nodes, root included. -/
theorem counters_invariant (t : Trie) (h : t.Reachable) :
    t.count_words = (t.root.countTerms : Int) ∧
    t.count_nodes = (t.root.countNodes : Int) :=
  ⟨(reachable_good t h).2.2.1, (reachable_good t h).2.2.2⟩

/-- Witness for C8 at a concrete reachable state: after inserting `"ab"`
and removing a missing word, the counters match the traversal counts. -/
theorem counters_invariant_witness :
    ((Trie.empty.insert ['a','b'] 2).remove ['a']).1.count_words
      = ((((Trie.empty.insert ['a','b'] 2).remove ['a']).1).root.countTerms
        : Int) ∧
    ((Trie.empty.insert ['a','b'] 2).remove ['a']).1.count_nodes
      = ((((Trie.empty.insert ['a','b'] 2).remove ['a']).1).root.countNodes
        : Int) :=
  counters_invariant ((Trie.empty.insert ['a','b'] 2).remove ['a']).1
    (Trie.Reachable.remove _ _
      (Trie.Reachable.insert _ _ _ Trie.Reachable.empty))

/-! ### C9: no dead branches -/

/-- The pruning scenario of the claim: insert `cats` and `car`, then
remove `cats`. -/
def pruneDemo (s1 s2 : ℚ) : Trie × Bool :=
  ((Trie.empty.insert ['c','a','t','s'] s1).insert
    ['c','a','r'] s2).remove ['c','a','t','s']

/-- C9: in every reachable state no non-root node is simultaneously
childless and non-terminal; and in the concrete scenario, removing `cats`
succeeds, prunes the `'t'` and `'s'` nodes (the path `"cat"` is gone)
while `'c'` and `'a'` survive (the prefix node `"ca"` still exists, with
the `'r'` child only), `contains("car")` stays true and
`contains("cats")` becomes false. -/
theorem no_dead_branches (t : Trie) (h : t.Reachable) :
    t.root.clean = true ∧
    (∀ s1 s2 : ℚ,
      (pruneDemo s1 s2).2 = true ∧
      (pruneDemo s1 s2).1.root.trace ['c','a','t'] = none ∧
      (pruneDemo s1 s2).1.root.trace ['c','a']
        = some (Node.mk [('r', Node.mk [] true s2)] false 0) ∧
      (pruneDemo s1 s2).1.contains ['c','a','r'] = true ∧
      (pruneDemo s1 s2).1.contains ['c','a','t','s'] = false) :=
  ⟨(reachable_good t h).2.1, fun s1 s2 => ⟨rfl, rfl, rfl, rfl, rfl⟩⟩

/-- Witness for C9 at the empty trie (reachable by construction). -/
theorem no_dead_branches_witness :
    Trie.empty.root.clean = true :=
  (no_dead_branches Trie.empty Trie.Reachable.empty).1

/-! #### Characterizing the empty trie -/

theorem hasKey_of_mem {c : Char} {m : Node} :
    ∀ {l : List (Char × Node)}, (c, m) ∈ l → hasKey c l = true := by
  intro l
  induction l with
  | nil => intro h; cases h
  | cons p r ih =>
    obtain ⟨d, b⟩ := p
    intro h
    rcases List.mem_cons.mp h with he | he
    · obtain ⟨h1, h2⟩ := Prod.mk.injEq .. ▸ he
      subst h1
      simp [hasKey, getChild]
    · by_cases hcd : c = d <;> simp [hasKey, getChild, hcd] <;>
        simpa [hasKey] using ih he

theorem getChild_of_mem_nodup {l : List (Char × Node)}
    (h : nodupKeys l = true) {c : Char} {m : Node} (hm : (c, m) ∈ l) :
    getChild c l = some m := by
  induction l with
  | nil => cases hm
  | cons p r ih =>
    obtain ⟨d, b⟩ := p
    simp only [nodupKeys, Bool.and_eq_true, Bool.not_eq_true'] at h
    rcases List.mem_cons.mp hm with he | he
    · obtain ⟨h1, h2⟩ := Prod.mk.injEq .. ▸ he
      subst h1
      subst h2
      simp [getChild]
    · by_cases hcd : c = d
      · subst hcd
        exact absurd (hasKey_of_mem he) (by simp [h.1])
      · simp [getChild, if_neg hcd, ih h.2 he]

theorem countTerms_zero_of_no_words : ∀ n : Node, n.wf = true →
    (∀ v : Word, n.containsW v = false) → n.countTerms = 0 := by
  refine Node.ind
    (fun n => n.wf = true → (∀ v : Word, n.containsW v = false) →
      n.countTerms = 0)
    (fun l => wfL l = true → nodupKeys l = true →
      (∀ c m, (c, m) ∈ l → ∀ v : Word, m.containsW v = false) →
      countTermsL l = 0) ?_ ?_ ?_
  · intro l e s hQ hwf hnw
    simp only [wf_mk, Bool.and_eq_true] at hwf
    have he : e = false := by simpa using hnw []
    subst he
    have hm : ∀ c m, (c, m) ∈ l → ∀ v : Word, m.containsW v = false := by
      intro c m hm v
      have := hnw (c :: v)
      rwa [Node.containsW_cons_some (m := m) v
        (by simpa using getChild_of_mem_nodup hwf.1 hm)] at this
    simp [countTerms_mk, hQ hwf.2 hwf.1 hm]
  · intro _ _ _
    rfl
  · intro c m r hP hQ hwl hnd hmem
    simp only [wfL, Bool.and_eq_true] at hwl
    simp only [nodupKeys, Bool.and_eq_true, Bool.not_eq_true'] at hnd
    simp only [countTermsL]
    rw [hP hwl.1 (hmem c m (by simp)),
      hQ hwl.2 hnd.2 (fun c' m' hm' => hmem c' m' (List.mem_cons_of_mem _ hm'))]

theorem one_le_countTerms_of_used : ∀ m : Node,
    (m.end_ || !m.next.isEmpty) = true → m.clean = true →
    1 ≤ m.countTerms := by
  refine Node.ind
    (fun m => (m.end_ || !m.next.isEmpty) = true → m.clean = true →
      1 ≤ m.countTerms)
    (fun l => cleanL l = true → l ≠ [] → 1 ≤ countTermsL l) ?_ ?_ ?_
  · intro l e s hQ hok hcl
    cases e with
    | true => simp
    | false =>
      simp only [Node.end_mk, Node.next_mk, Bool.false_or,
        Bool.not_eq_true'] at hok
      have hne : l ≠ [] := by
        cases l
        · simp at hok
        · simp
      simp only [clean_mk] at hcl
      have := hQ hcl hne
      simp only [countTerms_mk]
      omega
  · intro _ h
    simp at h
  · intro c m r hP hQ hcl _
    simp only [cleanL, Bool.and_eq_true] at hcl
    have := hP hcl.1.1 hcl.1.2
    simp only [countTermsL]
    omega

theorem next_nil_of_clean_empty (n : Node) (hc : n.clean = true)
    (ht : n.countTerms = 0) : n.next = [] := by
  obtain ⟨l, e, s⟩ := n
  cases l with
  | nil => rfl
  | cons p r =>
    obtain ⟨c, m⟩ := p
    simp only [clean_mk, cleanL, Bool.and_eq_true] at hc
    have h1 := one_le_countTerms_of_used m hc.1.1 hc.1.2
    simp only [countTerms_mk, countTermsL] at ht
    omega

/-! ### C4: round-trip deletion -/

/-- Insert a whole list of `(word, score)` pairs, left to right. -/
def insertList (t : Trie) : List (Word × ℚ) → Trie
  | [] => t
  | (w, s) :: r => insertList (t.insert w s) r

/-- Remove the listed words one after the other, collecting each call's
returned Boolean in order. -/
def removeList (t : Trie) : List Word → Trie × List Bool
  | [] => (t, [])
  | w :: r =>
    let p := t.remove w
    let q := removeList p.1 r
    (q.1, p.2 :: q.2)

theorem contains_insert (t : Trie) (w : Word) (s : ℚ) (v : Word) :
    (t.insert w s).contains v = (if v = w then true else t.contains v) := by
  have h := insertW_containsW w t.root s v
  simpa [Trie.contains_eq, Trie.insert] using h

theorem contains_empty (v : Word) : Trie.empty.contains v = false := by
  rw [Trie.contains_eq]
  exact containsW_leaf v

theorem insertList_contains :
    ∀ (ws : List (Word × ℚ)) (t : Trie) (v : Word),
    (insertList t ws).contains v
      = (decide (v ∈ ws.map Prod.fst) || t.contains v) := by
  intro ws
  induction ws with
  | nil => intro t v; simp [insertList]
  | cons p r ih =>
    intro t v
    obtain ⟨w, s⟩ := p
    simp only [insertList, ih, contains_insert]
    by_cases hvw : v = w
    · simp [hvw]
    · have hb : (v == w) = false := beq_eq_false_iff_ne.mpr hvw
      simp [hvw, hb]

theorem good_insertList : ∀ (ws : List (Word × ℚ)) (t : Trie),
    t.good → (insertList t ws).good := by
  intro ws
  induction ws with
  | nil => intro t h; exact h
  | cons p r ih =>
    intro t h
    obtain ⟨w, s⟩ := p
    exact ih (t.insert w s) (good_insert w s h)

theorem removeList_spec : ∀ (rs : List Word) (t : Trie), t.good →
    rs.Nodup → (∀ v : Word, t.contains v = decide (v ∈ rs)) →
    (removeList t rs).2 = List.replicate rs.length true ∧
    (removeList t rs).1.good ∧
    (∀ v : Word, (removeList t rs).1.contains v = false) := by
  intro rs
  induction rs with
  | nil =>
    intro t hg _ hc
    exact ⟨rfl, hg, fun v => by simpa using hc v⟩
  | cons w r ih =>
    intro t hg hnd hc
    have hw : t.contains w = true := by
      rw [hc w]
      simp
    have hwr : w ∉ r := (List.nodup_cons.mp hnd).1
    cases hr : t.root.removeW w with
    | none =>
      rw [Trie.contains_eq,
        (removeW_eq_none_iff w t.root).mp hr] at hw
      cases hw
    | some pr =>
      obtain ⟨root', p⟩ := pr
      have hrm : t.remove w =
          (⟨root', t.count_words - 1, t.count_nodes - p⟩, true) := by
        unfold Trie.remove
        rw [hr]
      have hg' : ((t.remove w).1).good := good_remove w hg
      have hc' : ∀ v : Word, ((t.remove w).1).contains v
          = decide (v ∈ r) := by
        intro v
        rw [Trie.contains_eq, hrm]
        have := removeW_containsW w t.root root' p hg.1 hr v
        simp only at this
        rw [this]
        by_cases hvw : v = w
        · subst hvw
          simp [hwr]
        · rw [if_neg hvw, ← Trie.contains_eq, hc v]
          simp [hvw]
      obtain ⟨hf, hgo, hno⟩ := ih (t.remove w).1 hg'
        (List.nodup_cons.mp hnd).2 hc'
      refine ⟨?_, hgo, hno⟩
      simp only [removeList]
      rw [hf, hrm]
      simp [List.replicate_succ]

theorem countNodes_of_next_nil (n : Node) (h : n.next = []) :
    n.countNodes = 1 := by
  obtain ⟨l, e, s⟩ := n
  simp only [Node.next_mk] at h
  subst h
  simp [countNodesL]

/-- C4: inserting a list of distinct words (each with any score) into the
empty trie and then removing each of them in turn makes every `remove`
call return `true` and leaves the trie with `node_count = 1` (root only)
and `word_count = 0`. -/
theorem roundtrip_removal (ws : List (Word × ℚ))
    (hnd : (ws.map Prod.fst).Nodup) :
    (removeList (insertList Trie.empty ws) (ws.map Prod.fst)).2
      = List.replicate ws.length true ∧
    (removeList (insertList Trie.empty ws) (ws.map Prod.fst)).1.count_nodes
      = 1 ∧
    (removeList (insertList Trie.empty ws) (ws.map Prod.fst)).1.count_words
      = 0 := by
  have hg := good_insertList ws Trie.empty good_empty
  have hcon : ∀ v : Word, (insertList Trie.empty ws).contains v
      = decide (v ∈ ws.map Prod.fst) := by
    intro v
    rw [insertList_contains, contains_empty]
    simp
  obtain ⟨hflags, hgood, hnone⟩ :=
    removeList_spec (ws.map Prod.fst) _ hg hnd hcon
  obtain ⟨hwf, hcl, hcw, hcn⟩ := hgood
  have hterms :
      (removeList (insertList Trie.empty ws)
        (ws.map Prod.fst)).1.root.countTerms = 0 :=
    countTerms_zero_of_no_words _ hwf
      (fun v => by rw [← Trie.contains_eq]; exact hnone v)
  have hnil := next_nil_of_clean_empty _ hcl hterms
  refine ⟨by simpa using hflags, ?_, ?_⟩
  · rw [hcn, countNodes_of_next_nil _ hnil]
    rfl
  · rw [hcw, hterms]
    rfl

/-- Witness for C4 at a concrete input: the two distinct words `"a"` and
`"ab"`. -/
theorem roundtrip_removal_witness :
    (removeList (insertList Trie.empty [(['a'], 1), (['a','b'], 2)])
      ([(['a'], (1 : ℚ)), (['a','b'], 2)].map Prod.fst)).2
      = List.replicate 2 true ∧
    (removeList (insertList Trie.empty [(['a'], 1), (['a','b'], 2)])
      ([(['a'], (1 : ℚ)), (['a','b'], 2)].map Prod.fst)).1.count_nodes
      = 1 ∧
    (removeList (insertList Trie.empty [(['a'], 1), (['a','b'], 2)])
      ([(['a'], (1 : ℚ)), (['a','b'], 2)].map Prod.fst)).1.count_words
      = 0 :=
  roundtrip_removal [(['a'], 1), (['a','b'], 2)] (by decide)

/-! ### C6: re-insert of an existing word -/

mutual
/-- Forget all scores (the only data an existing-word insert may change):
two nodes with the same `strip` have the same tree shape — the same
children lists, transitively, and the same terminal flags. -/
def Node.strip : Node → Node
  | .mk l e _ => .mk (stripL l) e 0
/-- `Node.strip` over a children list. -/
def stripL : List (Char × Node) → List (Char × Node)
  | [] => []
  | (c, m) :: r => (c, m.strip) :: stripL r
end

theorem stripL_setChild {c : Char} {child m' : Node}
    {l : List (Char × Node)} (hg : getChild c l = some child)
    (hs : m'.strip = child.strip) : stripL (setChild c m' l) = stripL l := by
  induction l with
  | nil => rfl
  | cons p r ih =>
    obtain ⟨d, b⟩ := p
    by_cases hcd : c = d
    · subst hcd
      simp [getChild] at hg
      subst hg
      simp [setChild, stripL, hs]
    · simp only [getChild, if_neg hcd] at hg
      simp [setChild, if_neg hcd, stripL, ih hg]

theorem insertW_existing : ∀ (w : Word) (n : Node) (s : ℚ),
    n.containsW w = true →
    (n.insertW w s).2.1 = 0 ∧ (n.insertW w s).2.2 = true ∧
    (n.insertW w s).1.strip = n.strip := by
  intro w
  induction w with
  | nil =>
    intro ⟨l, e, s0⟩ s h
    simp only [Node.containsW_nil, Node.end_mk] at h
    subst h
    exact ⟨rfl, rfl, rfl⟩
  | cons c cs ih =>
    intro ⟨l, e, s0⟩ s h
    cases hg : getChild c l with
    | none =>
      rw [Node.containsW_cons_none cs (by simpa using hg)] at h
      cases h
    | some child =>
      rw [Node.containsW_cons_some (m := child) cs (by simpa using hg)] at h
      obtain ⟨h1, h2, h3⟩ := ih child s h
      simp only [Node.insertW, hg]
      refine ⟨h1, h2, ?_⟩
      show Node.mk (stripL (setChild c (child.insertW cs s).1 l)) e 0
        = Node.mk (stripL l) e 0
      rw [stripL_setChild hg h3]

/-- C6: when `w` is already stored, `insert(w, s)` is a pure score update:
`word_count`, `node_count` and the tree shape (children structure and
terminal flags, i.e. the score-stripped tree) are unchanged, `contains(w)`
stays true, and the node of `w` now carries score `s`. -/
theorem insert_existing_update (t : Trie) (w : Word) (s : ℚ)
    (h : t.contains w = true) :
    (t.insert w s).count_words = t.count_words ∧
    (t.insert w s).count_nodes = t.count_nodes ∧
    (t.insert w s).root.strip = t.root.strip ∧
    (t.insert w s).contains w = true ∧
    ((t.insert w s).root.trace w).map Node.score = some s ∧
    ((t.insert w s).root.trace w).map Node.end_ = some true := by
  rw [Trie.contains_eq] at h
  obtain ⟨h1, h2, h3⟩ := insertW_existing w t.root s h
  obtain ⟨l', htr⟩ := insertW_trace w t.root s
  refine ⟨?_, ?_, ?_, ?_, ?_, ?_⟩
  · simp [Trie.insert, h2]
  · simp [Trie.insert, h1]
  · simpa [Trie.insert] using h3
  · rw [Trie.contains_eq]
    show (t.root.insertW w s).1.containsW w = true
    rw [insertW_containsW]
    simp
  · show ((t.root.insertW w s).1.trace w).map Node.score = some s
    rw [htr]
    rfl
  · show ((t.root.insertW w s).1.trace w).map Node.end_ = some true
    rw [htr]
    rfl

/-- Witness for C6 at a concrete input: re-insert `"a"` with a new score
into the trie that stores it with score 1. -/
theorem insert_existing_update_witness :
    ((Trie.empty.insert ['a'] 1).insert ['a'] 7).count_words
      = (Trie.empty.insert ['a'] 1).count_words ∧
    ((Trie.empty.insert ['a'] 1).insert ['a'] 7).count_nodes
      = (Trie.empty.insert ['a'] 1).count_nodes ∧
    ((Trie.empty.insert ['a'] 1).insert ['a'] 7).root.strip
      = (Trie.empty.insert ['a'] 1).root.strip ∧
    ((Trie.empty.insert ['a'] 1).insert ['a'] 7).contains ['a'] = true ∧
    (((Trie.empty.insert ['a'] 1).insert ['a'] 7).root.trace
      ['a']).map Node.score = some 7 ∧
    (((Trie.empty.insert ['a'] 1).insert ['a'] 7).root.trace
      ['a']).map Node.end_ = some true :=
  insert_existing_update (Trie.empty.insert ['a'] 1) ['a'] 7 (by decide)

/-! ### C10: the empty string at the public interface -/

theorem countTermsL_eq_sum (l : List (Char × Node)) :
    countTermsL l = (l.map (fun p => p.2.countTerms)).sum := by
  induction l with
  | nil => rfl
  | cons p r ih =>
    obtain ⟨c, m⟩ := p
    simp [countTermsL, ih]

theorem dfsStep_length (f : Node → Word → List Cand)
    (l : List (Char × Node)) (w : Word) :
    (dfsStep f l w).length
      = (l.map (fun p => (f p.2 (w ++ [p.1])).length)).sum := by
  induction l with
  | nil => rfl
  | cons p r ih =>
    obtain ⟨c, m⟩ := p
    simp [dfsStep, ih]

theorem dfs_length_aux : ∀ (k : Nat) (n : Node), n.countNodes ≤ k →
    ∀ w : Word, (n.dfs w).length = n.countTerms := by
  intro k
  induction k with
  | zero =>
    intro n h
    exact absurd h (by have := countNodes_pos n; omega)
  | succ a ih =>
    intro n hn w
    obtain ⟨l, e, s⟩ := n
    rw [dfs_eq]
    simp only [List.length_append, dfsStep_length, Node.next_mk]
    have hmap : (sortChildren l).map
        (fun p => ((fun (m : Node) (w' : Word) => m.dfs w') p.2
          (w ++ [p.1])).length)
        = (sortChildren l).map (fun p => p.2.countTerms) := by
      refine List.map_congr_left (fun p hp => ?_)
      obtain ⟨c, m⟩ := p
      have hm : (c, m) ∈ l := (mem_sortChildren l (c, m)).mp hp
      have hb : m.countNodes ≤ a := by
        have h1 := countNodes_le_of_mem l c m hm
        simp only [countNodes_mk] at hn
        omega
      exact ih m hb (w ++ [c])
    rw [hmap]
    unfold sortChildren
    rw [((List.perm_insertionSort _ l).map (fun p => p.2.countTerms)).sum_eq,
      ← countTermsL_eq_sum]
    simp only [countTerms_mk, Node.end_mk, Node.score_mk]
    cases e <;> simp

/-- The number of candidates below a node is its terminal count. -/
theorem dfs_length_eq (n : Node) (w : Word) :
    (n.dfs w).length = n.countTerms :=
  dfs_length_aux n.countNodes n le_rfl w

/-- When every candidate fits in the heap, each candidate's word is
returned by `complete`. -/
theorem mem_complete_of_few (t : Trie) (pfx : Word) (k : Nat) (n : Node)
    (ht : t.root.trace pfx = some n) (hlen : (n.dfs pfx).length ≤ k)
    (x : Cand) (hx : x ∈ n.dfs pfx) : x.2 ∈ t.complete pfx k := by
  unfold Trie.complete Trie.completePairs
  rw [completeHeap_some k ht,
    foldl_heapStep_no_evict k _ [] (by simpa using hlen)]
  have hperm :
      (List.insertionSort rankLe ((n.dfs pfx).reverse ++ [])).Perm
        (n.dfs pfx) :=
    (List.perm_insertionSort rankLe _).trans (by simp)
  exact List.mem_map_of_mem Prod.snd (hperm.mem_iff.mpr hx)

/-- C10, counterexample to the completion sentence: after
`insert("b", 10.0)` and `insert("", 5.0)`, the call `complete("", 1)`
returns `["b"]` — the stored empty word is not among the results even
though `k = 1 ≥ 1`, because a higher-scoring word fills the bounded
heap. -/
theorem empty_word_complete_cex :
    ((Trie.empty.insert ['b'] 10).insert [] 5).complete [] 1 = [['b']] ∧
    ¬([] ∈ ((Trie.empty.insert ['b'] 10).insert [] 5).complete [] 1) := by
  decide

/-- C10 as amended: for every trie state and score `s`, `insert("", s)`
leaves `node_count` unchanged (the flag lives on the root), makes
`contains("")` true, and increments `word_count` exactly when `""` was
not stored; `complete("", k)` includes `""` among its results whenever
`k ≥ 1` and at most `k` words are stored after the insert (the
counterexample forces this bound: with more than `k` stored words the
empty word can be evicted by higher-ranked ones); `remove("")` then
returns true, makes `contains("")` false again, and never removes the
root node (`node_count` is unchanged by the removal). -/
theorem empty_word_interface (t : Trie) (s : ℚ) (k : Nat) :
    (t.insert [] s).count_nodes = t.count_nodes ∧
    (t.insert [] s).contains [] = true ∧
    (t.insert [] s).count_words
      = t.count_words + (if t.contains [] then 0 else 1) ∧
    (1 ≤ k → (t.insert [] s).root.countTerms ≤ k →
      [] ∈ (t.insert [] s).complete [] k) ∧
    ((t.insert [] s).remove []).2 = true ∧
    ((t.insert [] s).remove []).1.contains [] = false ∧
    ((t.insert [] s).remove []).1.count_nodes
      = (t.insert [] s).count_nodes := by
  obtain ⟨⟨l, e, s0⟩, cw, cn⟩ := t
  refine ⟨?_, rfl, ?_, ?_, rfl, rfl, ?_⟩
  · simp [Trie.insert, Node.insertW]
  · simp [Trie.insert, Node.insertW, Trie.contains, Node.trace]
  · intro _ hterms
    simp only [Trie.insert, Node.insertW] at hterms ⊢
    apply mem_complete_of_few (n := Node.mk l true s) (x := (s, []))
    · rfl
    · rw [dfs_length_eq]
      exact hterms
    · rw [dfs_eq]
      simp
  · simp [Trie.insert, Node.insertW, Trie.remove, Node.removeW]

/-- Witness for C10's amended theorem at `t` empty, `s = 5`, `k = 1`. -/
theorem empty_word_interface_witness :
    (Trie.empty.insert [] 5).count_nodes = Trie.empty.count_nodes ∧
    (Trie.empty.insert [] 5).contains [] = true ∧
    (Trie.empty.insert [] 5).count_words
      = Trie.empty.count_words
        + (if Trie.empty.contains [] then 0 else 1) ∧
    [] ∈ (Trie.empty.insert [] 5).complete [] 1 ∧
    ((Trie.empty.insert [] 5).remove []).2 = true ∧
    ((Trie.empty.insert [] 5).remove []).1.contains [] = false ∧
    ((Trie.empty.insert [] 5).remove []).1.count_nodes
      = (Trie.empty.insert [] 5).count_nodes := by
  obtain ⟨h1, h2, h3, h4, h5, h6, h7⟩ := empty_word_interface Trie.empty 5 1
  exact ⟨h1, h2, h3, h4 (by decide) (by decide), h5, h6, h7⟩

end TrieSpec
